import Mathlib

/-!
Verification of the patents-per-million pipeline (`innovationsperMvers2.py`).

The script is a single-pass batch transform:
1. merge observations with a population table (left join on country code),
   drop rows with missing population, keep only rows with population > 0,
   and compute `Patents_per_million = OBS_VALUE / Population_millions`;
2. coerce the year to an integer, drop rows with missing year or missing
   per-capita value, group by (country, year) and take the mean;
3. pivot to a country × year matrix with a code-sorted country index and an
   ascending year list;
4. order the countries by one of three policies (`total`, `year:YYYY`,
   `latest`), each a descending `sort_values` with missing keys placed last;
5. emit, per year, a list of values aligned to the category order, with an
   explicit `null` for missing cells and values rounded to two decimals.

Numeric values are modelled as exact rationals (`ℚ`); a missing numeric field
(pandas `NaN`) is `Option.none`.  `Series.sort_values(ascending=False)` is
modelled as a stable descending sort with `na_position="last"`: pandas'
`nargsort` reverses the non-missing block, applies the kernel argsort,
reverses again and appends the missing positions, which for a stable kernel
(and for numpy's small-array insertion sort, used at the sizes this script
handles) is exactly a stable descending sort followed by the missing keys in
original index order.
-/

namespace Patents

/-- One input row of the OECD CSV: country code, year as coerced by
`pd.to_numeric(..., errors="coerce")` (`none` when coercion fails), and the
raw `OBS_VALUE` (`none` when the cell is missing). -/
structure Observation where
  country : String
  year : Option Int
  rawValue : Option ℚ
deriving DecidableEq, Repr

/-- A row of the merged frame after the population join, population filters
and the ratio computation (`merged` in the script). -/
structure NormObs where
  country : String
  year : Option Int
  rawValue : Option ℚ
  popMillions : ℚ
  perCapita : Option ℚ
deriving DecidableEq, Repr

/-- Lookup in the population table (`population_millions` dict: first match,
keys unique in the script). -/
def popLookup : List (String × ℚ) → String → Option ℚ
  | [], _ => none
  | (k, v) :: t, c => if k = c then some v else popLookup t c

/-- The Normalizer: left join on the country code, `dropna` on the
population, keep `Population_millions > 0`, and divide.  A missing
`OBS_VALUE` propagates to a missing per-capita value. -/
def normalize (pop : List (String × ℚ)) (obs : List Observation) : List NormObs :=
  obs.filterMap fun o =>
    (popLookup pop o.country).bind fun p =>
      if 0 < p then
        some ⟨o.country, o.year, o.rawValue, p, o.rawValue.map (fun v => v / p)⟩
      else none

/-- C2 — the Normalizer keeps exactly the rows with a positive matching
population and computes `per_capita_value = raw_value / population_millions`
without rounding; rows with a missing or non-positive population never
appear. -/
theorem normalizer_spec (pop : List (String × ℚ)) (obs : List Observation) (r : NormObs) :
    r ∈ normalize pop obs ↔
      ∃ o ∈ obs, popLookup pop o.country = some r.popMillions ∧ 0 < r.popMillions ∧
        r.country = o.country ∧ r.year = o.year ∧ r.rawValue = o.rawValue ∧
        r.perCapita = o.rawValue.map (fun v => v / r.popMillions) := by
  simp only [normalize, List.mem_filterMap, Option.bind_eq_some]
  constructor
  · rintro ⟨o, ho, p, hp, h⟩
    split at h
    · injection h with h
      subst h
      exact ⟨o, ho, hp, by assumption, rfl, rfl, rfl, rfl⟩
    · cases h
  · rintro ⟨o, ho, hp, hpos, hc, hy, hv, hpc⟩
    refine ⟨o, ho, r.popMillions, hp, ?_⟩
    rw [if_pos hpos]
    cases r
    simp_all

/-! ### Aggregator / Pivoter -/

/-- Lexicographic comparison of country-code strings by code points — the
comparison Python and pandas apply to the string index. -/
def strLt (s t : String) : Prop := s.data < t.data

/-- Non-strict code-point comparison of strings. -/
def strLe (s t : String) : Prop := s.data ≤ t.data

instance : DecidableRel strLt := fun s t =>
  inferInstanceAs (Decidable (s.data < t.data))

instance : DecidableRel strLe := fun s t =>
  inferInstanceAs (Decidable (s.data ≤ t.data))

instance : IsTotal String strLe := ⟨fun a b => le_total a.data b.data⟩

instance : IsTrans String strLe := ⟨fun _ _ _ h1 h2 => le_trans h1 h2⟩

theorem strLt_trichotomy (a b : String) : strLt a b ∨ a = b ∨ strLt b a := by
  rcases lt_trichotomy a.data b.data with h | h | h
  · exact Or.inl h
  · exact Or.inr (Or.inl (congrArg String.mk h))
  · exact Or.inr (Or.inr h)

/-- Group-key ordering used by pandas `groupby(..., sort=True)` and
`pivot().sort_index()`: lexicographic on (country code, year). -/
def keyLe (a b : String × Int) : Prop := strLt a.1 b.1 ∨ (a.1 = b.1 ∧ a.2 ≤ b.2)

instance : DecidableRel keyLe := fun a b =>
  inferInstanceAs (Decidable (strLt a.1 b.1 ∨ (a.1 = b.1 ∧ a.2 ≤ b.2)))

instance : IsTotal (String × Int) keyLe :=
  ⟨fun a b => by
    rcases strLt_trichotomy a.1 b.1 with h | h | h
    · exact Or.inl (Or.inl h)
    · rcases le_total a.2 b.2 with h2 | h2
      · exact Or.inl (Or.inr ⟨h, h2⟩)
      · exact Or.inr (Or.inr ⟨h.symm, h2⟩)
    · exact Or.inr (Or.inl h)⟩

instance : IsTrans (String × Int) keyLe :=
  ⟨fun a b c hab hbc => by
    have hab' : strLt a.1 b.1 ∨ (a.1 = b.1 ∧ a.2 ≤ b.2) := hab
    have hbc' : strLt b.1 c.1 ∨ (b.1 = c.1 ∧ b.2 ≤ c.2) := hbc
    rcases hab' with h | ⟨he, h2⟩
    · rcases hbc' with h' | ⟨he', _⟩
      · exact Or.inl (lt_trans (show a.1.data < b.1.data from h) h')
      · exact Or.inl (he' ▸ h)
    · rcases hbc' with h' | ⟨he', h2'⟩
      · exact Or.inl (he ▸ h')
      · exact Or.inr ⟨he.trans he', h2.trans h2'⟩⟩

/-- The rows surviving year coercion and the `dropna` on year and
per-capita value (lines 50–52 of the script), as (country, year, value)
triples. -/
def validRows (rows : List NormObs) : List (String × Int × ℚ) :=
  rows.filterMap fun r =>
    match r.year, r.perCapita with
    | some y, some v => some (r.country, y, v)
    | _, _ => none

/-- All per-capita values recorded under one (country, year) group key. -/
def valsAt (v : List (String × Int × ℚ)) (k : String × Int) : List ℚ :=
  v.filterMap fun r => if (r.1, r.2.1) = k then some r.2.2 else none

/-- Mean of a group of values; `none` for an empty group. -/
def mean? (vs : List ℚ) : Option ℚ :=
  if vs.isEmpty then none else some (vs.sum / (vs.length : ℚ))

/-- The country × year matrix (the `pivot` frame) as an association list. -/
abbrev Mat := List ((String × Int) × ℚ)

/-- The groupby-mean step (lines 55–57): one row per distinct
(country, year) key, keys sorted lexicographically as pandas `groupby`
emits them, each key carrying the arithmetic mean of its group. -/
def aggregate (v : List (String × Int × ℚ)) : Mat :=
  (List.insertionSort keyLe ((v.map fun r => (r.1, r.2.1)).dedup)).map
    fun k => (k, (valsAt v k).sum / ((valsAt v k).length : ℚ))

/-- The full Aggregator/Pivoter: keep valid rows, then group and average. -/
def buildMatrix (rows : List NormObs) : Mat := aggregate (validRows rows)

/-- Read one cell of the pivoted matrix. -/
def cellValue : Mat → String → Int → Option ℚ
  | [], _, _ => none
  | (k, v) :: m, c, y => if k = (c, y) then some v else cellValue m c y

/-- Matrix rows viewed again as observation triples (to state idempotence
of the aggregation step). -/
def toRows (m : Mat) : List (String × Int × ℚ) :=
  m.map fun p => (p.1.1, p.1.2, p.2)

theorem cellValue_map_of_mem {ks : List (String × Int)} {f : String × Int → ℚ}
    {c : String} {y : Int} (h : (c, y) ∈ ks) :
    cellValue (ks.map fun k => (k, f k)) c y = some (f (c, y)) := by
  induction ks with
  | nil => cases h
  | cons k t ih =>
    simp only [List.map_cons, cellValue]
    by_cases hk : k = (c, y)
    · subst hk; simp
    · rw [if_neg hk]
      rcases List.mem_cons.mp h with h' | h'
      · exact absurd h'.symm hk
      · exact ih h'

theorem cellValue_map_of_not_mem {ks : List (String × Int)} {f : String × Int → ℚ}
    {c : String} {y : Int} (h : (c, y) ∉ ks) :
    cellValue (ks.map fun k => (k, f k)) c y = none := by
  induction ks with
  | nil => rfl
  | cons k t ih =>
    simp only [List.map_cons, cellValue]
    rw [if_neg fun hk => h (List.mem_cons.mpr (Or.inl hk.symm))]
    exact ih fun h' => h (List.mem_cons_of_mem _ h')

theorem mem_keys_iff_valsAt_ne_nil (v : List (String × Int × ℚ)) (k : String × Int) :
    k ∈ v.map (fun r => (r.1, r.2.1)) ↔ valsAt v k ≠ [] := by
  rw [valsAt, Ne, List.filterMap_eq_nil_iff]
  push_neg
  constructor
  · rintro hm
    rcases List.mem_map.mp hm with ⟨r, hr, hk⟩
    exact ⟨r, hr, by rw [if_pos hk]; exact Option.some_ne_none _⟩
  · rintro ⟨r, hr, hne⟩
    by_cases hk : (r.1, r.2.1) = k
    · exact List.mem_map.mpr ⟨r, hr, hk⟩
    · exact absurd (if_neg hk) hne

/-- C5 — the Aggregator drops exactly the rows with an uncoercible year or
an undefined per-capita value; each remaining (country, year) cell is the
arithmetic mean of the values sharing that key; keys are unique, so each
cell holds at most one value. -/
theorem aggregator_spec (rows : List NormObs) :
    (∀ c y, cellValue (buildMatrix rows) c y = mean? (valsAt (validRows rows) (c, y))) ∧
    buildMatrix rows = buildMatrix (rows.filter fun r => r.year.isSome && r.perCapita.isSome) ∧
    ((buildMatrix rows).map Prod.fst).Nodup := by
  refine ⟨?_, ?_, ?_⟩
  · intro c y
    by_cases hmem : (c, y) ∈ (validRows rows).map (fun r => (r.1, r.2.1))
    · have hk : (c, y) ∈ List.insertionSort keyLe
          (((validRows rows).map fun r => (r.1, r.2.1)).dedup) :=
        (List.mem_insertionSort keyLe).mpr (List.mem_dedup.mpr hmem)
      have hne := (mem_keys_iff_valsAt_ne_nil _ _).mp hmem
      rw [buildMatrix, aggregate, cellValue_map_of_mem hk, mean?,
        if_neg (fun he => hne (List.isEmpty_iff.mp he))]
    · have hk : (c, y) ∉ List.insertionSort keyLe
          (((validRows rows).map fun r => (r.1, r.2.1)).dedup) := fun hin =>
        hmem (List.mem_dedup.mp ((List.mem_insertionSort keyLe).mp hin))
      have hnil : valsAt (validRows rows) (c, y) = [] := by
        by_contra hne
        exact hmem ((mem_keys_iff_valsAt_ne_nil _ _).mpr hne)
      rw [buildMatrix, aggregate, cellValue_map_of_not_mem hk, mean?, hnil]
      rfl
  · have hval : validRows (rows.filter fun r => r.year.isSome && r.perCapita.isSome)
        = validRows rows := by
      induction rows with
      | nil => rfl
      | cons r t ih =>
        cases hy : r.year with
        | none => simpa [validRows, List.filter_cons, hy] using ih
        | some y =>
          cases hv : r.perCapita with
          | none => simpa [validRows, List.filter_cons, hy, hv] using ih
          | some v => simpa [validRows, List.filter_cons, hy, hv] using ih
    rw [buildMatrix, buildMatrix, hval]
  · have : (buildMatrix rows).map Prod.fst = List.insertionSort keyLe
        (((validRows rows).map fun r => (r.1, r.2.1)).dedup) := by
      rw [buildMatrix, aggregate, List.map_map]
      exact List.map_id _
    rw [this]
    exact (List.perm_insertionSort keyLe _).symm.nodup (List.nodup_dedup _)

theorem filterMap_eq_single_of_nodup {ks : List (String × Int)} {f : String × Int → ℚ}
    {k : String × Int} (hnd : ks.Nodup) (hk : k ∈ ks) :
    (ks.filterMap fun x => if x = k then some (f x) else none) = [f k] := by
  induction ks with
  | nil => cases hk
  | cons a t ih =>
    by_cases hak : a = k
    · subst hak
      have hat : a ∉ t := (List.nodup_cons.mp hnd).1
      have htail : (t.filterMap fun x => if x = a then some (f x) else none) = [] :=
        List.filterMap_eq_nil_iff.mpr fun x hx =>
          if_neg fun he : x = a => hat (he ▸ hx)
      simp [List.filterMap_cons, htail]
    · have hkt : k ∈ t := (List.mem_cons.mp hk).resolve_left fun he => hak he.symm
      simp [List.filterMap_cons, hak, ih (List.nodup_cons.mp hnd).2 hkt]

theorem keys_toRows_map (f : String × Int → ℚ) (ks : List (String × Int)) :
    (toRows (ks.map fun k => (k, f k))).map (fun r => (r.1, r.2.1)) = ks := by
  rw [toRows, List.map_map, List.map_map]
  exact (List.map_congr_left fun a _ => rfl).trans (List.map_id ks)

theorem valsAt_toRows_map (f : String × Int → ℚ) {ks : List (String × Int)}
    (hnd : ks.Nodup) {k : String × Int} (hk : k ∈ ks) :
    valsAt (toRows (ks.map fun k => (k, f k))) k = [f k] := by
  rw [toRows, valsAt, List.map_map, List.filterMap_map]
  exact filterMap_eq_single_of_nodup hnd hk

theorem aggregate_of_aggregated (ks : List (String × Int)) (f : String × Int → ℚ)
    (hnd : ks.Nodup) (hs : List.Sorted keyLe ks) :
    aggregate (toRows (ks.map fun k => (k, f k))) = ks.map fun k => (k, f k) := by
  rw [aggregate, keys_toRows_map, List.dedup_eq_self.mpr hnd, hs.insertionSort_eq]
  refine List.map_congr_left fun k hk => ?_
  rw [valsAt_toRows_map f hnd hk]
  simp

/-- C7 — aggregation is idempotent: regrouping the rows of an aggregated
matrix (whose (country, year) keys are unique) gives back the same matrix,
each singleton group's mean being its single value. -/
theorem aggregation_idempotent (v : List (String × Int × ℚ)) :
    aggregate (toRows (aggregate v)) = aggregate v :=
  aggregate_of_aggregated _ _
    ((List.perm_insertionSort keyLe _).symm.nodup (List.nodup_dedup _))
    (List.sorted_insertionSort keyLe _)

/-! ### Category Sorter -/

/-- Countries of the matrix, code-sorted (`pivot.sort_index()`, line 61). -/
def matCountries (m : Mat) : List String :=
  List.insertionSort strLe ((m.map fun p => p.1.1).dedup)

/-- Years present in the matrix, deduplicated and ascending
(`years = sorted(pivot.columns.tolist())`, line 64). -/
def matYears (m : Mat) : List Int :=
  List.insertionSort (· ≤ ·) ((m.map fun p => p.1.2).dedup)

/-- Descending comparison of keyed pairs: the relation under which a stable
descending `sort_values` orders the non-missing block. -/
def descRel {α : Type} (a b : α × ℚ) : Prop := b.2 ≤ a.2

instance {α : Type} : DecidableRel (descRel (α := α)) := fun a b =>
  inferInstanceAs (Decidable (b.2 ≤ a.2))

instance {α : Type} : IsTotal (α × ℚ) descRel := ⟨fun a b => le_total b.2 a.2⟩

instance {α : Type} : IsTrans (α × ℚ) descRel :=
  ⟨fun _ _ _ hab hbc => le_trans hbc hab⟩

/-- `Series.sort_values(ascending=False)` over an index with an everywhere
defined key column, returning the reordered index: a stable descending
sort (pandas' `nargsort` reverses the block, applies the kernel argsort and
reverses back, which for a stable kernel is exactly this). -/
def sortCatsByTotal (key : String → ℚ) (cats : List String) : List String :=
  (List.insertionSort descRel (cats.map fun c => (c, key c))).map Prod.fst

/-- `Series.sort_values(ascending=False, na_position="last")` over a key
column with possible missing values: the missing positions are set aside,
the rest is sorted stably descending, and the missing index entries are
appended in original order. -/
def sortCatsByKey (key : String → Option ℚ) (cats : List String) : List String :=
  (List.insertionSort descRel
      (cats.filterMap fun c => (key c).map fun v => (c, v))).map Prod.fst
    ++ (cats.filter fun c => (key c).isNone)

/-- Row sum over the available cells (`pivot.sum(axis=1, skipna=True)`,
line 73); an all-missing row sums to 0. -/
def rowSum (m : Mat) (c : String) : ℚ :=
  ((matYears m).filterMap fun y => cellValue m c y).sum

/-- The chronologically latest available value of a row: years scanned
ascending, last non-missing wins (lines 85–89). -/
def latestVal (m : Mat) (c : String) : Option ℚ :=
  ((matYears m).filterMap fun y => cellValue m c y).getLast?

/-- The sort year resolved by the `year:` branch (lines 77–82): the parsed
year when it is one of the columns, otherwise the maximum available year,
and `none` when no years exist. -/
def yearKey (y? : Option Int) (ys : List Int) : Option Int :=
  match y? with
  | none => ys.max?
  | some y => if y ∈ ys then some y else ys.max?

/-- Sort the countries by their value in one year, missing values last. -/
def sortByYear (m : Mat) (y : Int) : List String :=
  sortCatsByKey (fun c => cellValue m c y) (matCountries m)

/-- The `year:` policy after key resolution (line 83): natural order when
no year could be resolved. -/
def yearOrder (y? : Option Int) (m : Mat) : List String :=
  match yearKey y? (matYears m) with
  | none => matCountries m
  | some y => sortByYear m y

/-- The `total` policy (lines 72–75). -/
def totalOrder (m : Mat) : List String :=
  sortCatsByTotal (rowSum m) (matCountries m)

/-- The `latest` policy (lines 84–90). -/
def latestOrder (m : Mat) : List String :=
  sortCatsByKey (latestVal m) (matCountries m)

/-- The `SORT_MODE` dispatch (lines 70–90), including the `int(...)` parse
of the suffix after `year:` (parse failure falls into the same fallback as
an absent year). -/
def categoriesFor (mode : String) (m : Mat) : List String :=
  if mode = "total" then totalOrder m
  else if mode.startsWith "year:" then yearOrder ((mode.drop 5).toInt?) m
  else latestOrder m

/-- Descending order, missing keys at the end: the pairwise relation a
`na_position="last"` descending sort establishes on the index. -/
def naDescRel (key : String → Option ℚ) (a b : String) : Prop :=
  match key a, key b with
  | _, none => True
  | some va, some vb => vb ≤ va
  | none, some _ => False

theorem sortCatsByTotal_perm (key : String → ℚ) (cats : List String) :
    (sortCatsByTotal key cats).Perm cats := by
  rw [sortCatsByTotal]
  refine ((List.perm_insertionSort descRel (cats.map fun c => (c, key c))).map
    Prod.fst).trans ?_
  rw [List.map_map]
  have h2 : List.map (Prod.fst ∘ fun c => (c, key c)) cats = cats :=
    (List.map_congr_left fun a _ => rfl).trans (List.map_id cats)
  rw [h2]

theorem mem_keyed_pairs {key : String → ℚ} {cats : List String} {p : String × ℚ}
    (hp : p ∈ cats.map fun c => (c, key c)) : p.2 = key p.1 := by
  rcases List.mem_map.mp hp with ⟨c, _, hc⟩
  rw [← hc]

theorem sortCatsByTotal_pairwise (key : String → ℚ) (cats : List String) :
    (sortCatsByTotal key cats).Pairwise fun a b => key b ≤ key a := by
  rw [sortCatsByTotal, List.pairwise_map]
  have hs : (List.insertionSort descRel (cats.map fun c => (c, key c))).Pairwise descRel :=
    List.sorted_insertionSort descRel _
  refine hs.imp_of_mem ?_
  intro p q hp hq hpq
  have hp' := mem_keyed_pairs ((List.mem_insertionSort descRel).mp hp)
  have hq' := mem_keyed_pairs ((List.mem_insertionSort descRel).mp hq)
  rw [← hp', ← hq']
  exact hpq

theorem sortCatsByTotal_stable (key : String → ℚ) (cats : List String) {a b : String}
    (heq : key a = key b) (h : [a, b].Sublist cats) :
    [a, b].Sublist (sortCatsByTotal key cats) := by
  have h2 : [(a, key a), (b, key b)].Sublist (cats.map fun c => (c, key c)) := by
    simpa using h.map fun c => (c, key c)
  have h3 := List.pair_sublist_insertionSort
    (show descRel (a, key a) (b, key b) from heq.ge) h2
  simpa [sortCatsByTotal] using h3.map Prod.fst

theorem mem_keyed_somes {key : String → Option ℚ} {cats : List String} {p : String × ℚ}
    (hp : p ∈ cats.filterMap fun c => (key c).map fun v => (c, v)) :
    key p.1 = some p.2 := by
  rcases List.mem_filterMap.mp hp with ⟨c, _, hc⟩
  cases hk : key c with
  | none => rw [hk] at hc; cases hc
  | some v =>
    rw [hk] at hc
    injection hc with hc
    rw [← hc]
    exact hk

theorem mem_keyed_nones {key : String → Option ℚ} {cats : List String} {c : String}
    (hc : c ∈ cats.filter fun c => (key c).isNone) : key c = none :=
  Option.isNone_iff_eq_none.mp ((List.mem_filter.mp hc).2)

theorem sortCatsByKey_perm (key : String → Option ℚ) (cats : List String) :
    (sortCatsByKey key cats).Perm cats := by
  rw [sortCatsByKey]
  have hpart : ∀ cs : List String,
      (((cs.filterMap fun c => (key c).map fun v => (c, v)).map Prod.fst)
        ++ (cs.filter fun c => (key c).isNone)).Perm cs := by
    intro cs
    induction cs with
    | nil => exact List.Perm.refl _
    | cons c t ih =>
      cases hc : key c with
      | some v =>
        simp only [List.filterMap_cons, hc, Option.map_some', List.filter_cons,
          Option.isNone_some, Bool.false_eq_true, if_false, List.map_cons,
          List.cons_append]
        exact ih.cons c
      | none =>
        simp only [List.filterMap_cons, hc, Option.map_none', List.filter_cons,
          Option.isNone_none, if_true]
        exact List.perm_middle.trans (ih.cons c)
  exact (List.Perm.append_right _ ((List.perm_insertionSort descRel _).map Prod.fst)).trans
    (hpart cats)

theorem sortCatsByKey_pairwise (key : String → Option ℚ) (cats : List String) :
    (sortCatsByKey key cats).Pairwise (naDescRel key) := by
  rw [sortCatsByKey, List.pairwise_append]
  refine ⟨?_, ?_, ?_⟩
  · rw [List.pairwise_map]
    have hs : (List.insertionSort descRel
        (cats.filterMap fun c => (key c).map fun v => (c, v))).Pairwise descRel :=
      List.sorted_insertionSort descRel _
    refine hs.imp_of_mem ?_
    intro p q hp hq hpq
    have hp' := mem_keyed_somes ((List.mem_insertionSort descRel).mp hp)
    have hq' := mem_keyed_somes ((List.mem_insertionSort descRel).mp hq)
    simp only [naDescRel, hp', hq']
    exact hpq
  · refine List.pairwise_of_forall_mem_list ?_
    intro a _ b hb
    simp only [naDescRel, mem_keyed_nones hb]
  · intro a ha b hb
    rcases List.mem_map.mp ha with ⟨p, hp, hpa⟩
    have hp' := mem_keyed_somes ((List.mem_insertionSort descRel).mp hp)
    simp only [naDescRel, mem_keyed_nones hb]

theorem matYears_sorted_lt (m : Mat) : (matYears m).Sorted (· < ·) :=
  (List.sorted_insertionSort _ _).lt_of_le
    ((List.perm_insertionSort _ _).symm.nodup (List.nodup_dedup _))

theorem getLast?_filterMap_sorted {f : Int → Option ℚ} :
    ∀ {ys : List Int}, ys.Sorted (· < ·) → ∀ {v : ℚ},
      ((ys.filterMap f).getLast? = some v ↔
        ∃ y ∈ ys, f y = some v ∧ ∀ y2 ∈ ys, y < y2 → f y2 = none) := by
  intro ys
  induction ys with
  | nil => intro _ v; simp
  | cons y0 t ih =>
    intro hs v
    have hs0 : ∀ y ∈ t, y0 < y := List.rel_of_sorted_cons hs
    have hst : t.Sorted (· < ·) := hs.of_cons
    cases hf : f y0 with
    | none =>
      rw [List.filterMap_cons_none hf, ih hst]
      constructor
      · rintro ⟨y, hy, hfy, hall⟩
        refine ⟨y, List.mem_cons_of_mem _ hy, hfy, ?_⟩
        intro y2 hy2 hlt
        rcases List.mem_cons.mp hy2 with rfl | hy2'
        · exact hf
        · exact hall y2 hy2' hlt
      · rintro ⟨y, hy, hfy, hall⟩
        rcases List.mem_cons.mp hy with rfl | hy'
        · rw [hf] at hfy; cases hfy
        · exact ⟨y, hy', hfy, fun y2 h2 hlt => hall y2 (List.mem_cons_of_mem _ h2) hlt⟩
    | some w =>
      rw [List.filterMap_cons_some hf]
      by_cases hnil : t.filterMap f = []
      · rw [hnil]
        have hallnone : ∀ y ∈ t, f y = none := List.filterMap_eq_nil_iff.mp hnil
        show some w = some v ↔ _
        constructor
        · intro hv
          injection hv with hv
          subst hv
          refine ⟨y0, List.mem_cons_self _ _, hf, ?_⟩
          intro y2 hy2 hlt
          rcases List.mem_cons.mp hy2 with rfl | hy2'
          · exact absurd hlt (lt_irrefl _)
          · exact hallnone y2 hy2'
        · rintro ⟨y, hy, hfy, _⟩
          rcases List.mem_cons.mp hy with rfl | hy'
          · rw [hf] at hfy
            exact hfy
          · exact absurd hfy (by rw [hallnone y hy']; exact fun h => Option.noConfusion h)
      · have hcons : (w :: t.filterMap f).getLast? = (t.filterMap f).getLast? := by
          cases htl : t.filterMap f with
          | nil => exact absurd htl hnil
          | cons a l => exact List.getLast?_cons_cons
        rw [hcons, ih hst]
        constructor
        · rintro ⟨y, hy, hfy, hall⟩
          refine ⟨y, List.mem_cons_of_mem _ hy, hfy, fun y2 hy2 hlt => ?_⟩
          rcases List.mem_cons.mp hy2 with rfl | hy2'
          · exact absurd hlt (lt_asymm (hs0 y hy))
          · exact hall y2 hy2' hlt
        · rintro ⟨y, hy, hfy, hall⟩
          rcases List.mem_cons.mp hy with rfl | hy'
          · exfalso
            have hex : ∃ y2 ∈ t, ¬ f y2 = none := by
              by_contra hno
              push_neg at hno
              exact hnil (List.filterMap_eq_nil_iff.mpr hno)
            rcases hex with ⟨y2, hy2, hne⟩
            exact hne (hall y2 (List.mem_cons_of_mem _ hy2) (hs0 y2 hy2))
          · exact ⟨y, hy', hfy, fun y2 h2 hlt => hall y2 (List.mem_cons_of_mem _ h2) hlt⟩

/-- A small concrete matrix used to instantiate the policy theorems:
countries A and B tie on their total, C leads. -/
def tieMat : Mat := [(("A", 2020), 1), (("B", 2020), 1), (("C", 2020), 5)]

/-- C1 — under `total`, the category order is a permutation of the code
sorted country index, descending in the per-country sum of available
values, with ties left in index (code) order. -/
theorem total_policy_spec (m : Mat) :
    (totalOrder m).Perm (matCountries m) ∧
    ((totalOrder m).Pairwise fun a b => rowSum m b ≤ rowSum m a) ∧
    ∀ a b : String, rowSum m a = rowSum m b → [a, b].Sublist (matCountries m) →
      [a, b].Sublist (totalOrder m) :=
  ⟨sortCatsByTotal_perm _ _, sortCatsByTotal_pairwise _ _,
   fun _ _ heq h => sortCatsByTotal_stable _ _ heq h⟩

unseal Rat.add Rat.mul Rat.inv Rat.sub in
/-- Witness for C1 at a concrete matrix with a tie: A and B have equal
sums and keep their code order. -/
theorem total_policy_spec_witness : [("A" : String), "B"].Sublist (totalOrder tieMat) :=
  (total_policy_spec tieMat).2.2 "A" "B" (by decide) (by decide)

/-- C3 — under `year:YYYY`: an empty year list gives the pre-existing
order; a present year sorts by that year; an absent year falls back to the
maximum year; and the per-year sort is a permutation, descending with
missing values last.  (Each branch is a total function: the run never
fails.) -/
theorem year_policy_spec (m : Mat) (y : Int) :
    (matYears m = [] → yearOrder (some y) m = matCountries m) ∧
    (y ∈ matYears m → yearOrder (some y) m = sortByYear m y) ∧
    (y ∉ matYears m → ∀ z, (matYears m).max? = some z →
      yearOrder (some y) m = sortByYear m z) ∧
    ∀ z, (sortByYear m z).Perm (matCountries m) ∧
      (sortByYear m z).Pairwise (naDescRel fun c => cellValue m c z) := by
  refine ⟨?_, ?_, ?_, fun z => ⟨sortCatsByKey_perm _ _, sortCatsByKey_pairwise _ _⟩⟩
  · intro he
    simp [yearOrder, yearKey, he]
  · intro hy
    simp [yearOrder, yearKey, hy]
  · intro hy z hz
    simp [yearOrder, yearKey, hy, hz]

/-- Witness for C3: a present year is used as is; an absent one falls back
to the maximum year. -/
theorem year_policy_spec_witness :
    yearOrder (some 2020) tieMat = sortByYear tieMat 2020 ∧
    yearOrder (some 1999) tieMat = sortByYear tieMat 2020 :=
  ⟨(year_policy_spec tieMat 2020).2.1 (by decide),
   (year_policy_spec tieMat 1999).2.2.1 (by decide) 2020 (by decide)⟩

/-- C6 — under `latest`, the key of a country is its value at the
chronologically latest year having one (years scanned ascending, last
non-missing wins), and the order is a descending permutation on that key
with keyless countries last. -/
theorem latest_policy_spec (m : Mat) :
    (latestOrder m).Perm (matCountries m) ∧
    (latestOrder m).Pairwise (naDescRel (latestVal m)) ∧
    ∀ c v, latestVal m c = some v ↔
      ∃ y ∈ matYears m, cellValue m c y = some v ∧
        ∀ y2 ∈ matYears m, y < y2 → cellValue m c y2 = none :=
  ⟨sortCatsByKey_perm _ _, sortCatsByKey_pairwise _ _,
   fun _ _ => getLast?_filterMap_sorted (matYears_sorted_lt m)⟩

/-- Witness for C6 at the concrete matrix: C's only value is its latest. -/
theorem latest_policy_spec_witness : latestVal tieMat "C" = some 5 :=
  ((latest_policy_spec tieMat).2.2 "C" 5).mpr ⟨2020, by decide, by decide, by decide⟩

/-- C9 — under every policy the category order is a permutation of the
matrix's country codes, which are themselves duplicate-free. -/
theorem category_order_perm (mode : String) (m : Mat) :
    (categoriesFor mode m).Perm (matCountries m) ∧ (matCountries m).Nodup := by
  constructor
  · rw [categoriesFor]
    split_ifs with h1 h2
    · exact sortCatsByTotal_perm _ _
    · rw [yearOrder]
      cases yearKey ((mode.drop 5).toInt?) (matYears m) with
      | none => exact List.Perm.refl _
      | some y => exact sortCatsByKey_perm _ _
    · exact sortCatsByKey_perm _ _
  · exact (List.perm_insertionSort _ _).symm.nodup (List.nodup_dedup _)

/-- Witness for C9 at a concrete mode and matrix. -/
theorem category_order_perm_witness :
    (categoriesFor "year:2020" tieMat).Perm (matCountries tieMat) :=
  (category_order_perm "year:2020" tieMat).1

/-- C10 — any `SORT_MODE` other than `"total"` that does not start with
`"year:"` silently selects the `latest` policy; no mode is rejected. -/
theorem sort_mode_default_latest (mode : String) (m : Mat)
    (h1 : mode ≠ "total") (h2 : ¬ mode.startsWith "year:") :
    categoriesFor mode m = latestOrder m := by
  rw [categoriesFor, if_neg h1, if_neg h2]

/-- Witness for C10: the empty mode string behaves as `latest`. -/
theorem sort_mode_default_latest_witness : categoriesFor "" tieMat = latestOrder tieMat :=
  sort_mode_default_latest "" tieMat (by decide) (by decide)

/-! ### Series Builder -/

/-- Python's `round` to the nearest integer on an exact rational:
round-half-to-even (banker's rounding). -/
def roundHalfEven (q : ℚ) : ℤ :=
  if q - ⌊q⌋ < 1 / 2 then ⌊q⌋
  else if 1 / 2 < q - ⌊q⌋ then ⌊q⌋ + 1
  else if ⌊q⌋ % 2 = 0 then ⌊q⌋ else ⌊q⌋ + 1

/-- `round(float(v), 2)` (line 95): round to two decimal places. -/
def roundTo2 (q : ℚ) : ℚ := (roundHalfEven (q * 100) : ℚ) / 100

/-- One chart series (`series_for_year`, lines 93–97): aligned to the
category order, an explicit `none` for each missing cell, present values
rounded to two decimals; a year outside the columns gives an all-missing
series of the same length. -/
def seriesForYear (m : Mat) (cats : List String) (y : Int) : List (Option ℚ) :=
  if y ∈ matYears m then cats.map fun c => (cellValue m c y).map roundTo2
  else cats.map fun _ => none

/-- C4 — for a year of the year list, the series has exactly one entry per
category, positionally aligned to it; a (year, country) pair without a cell
yields the explicit `none` marker (never 0 and never an omitted position),
and every present value is a whole number of hundredths, i.e. rounded to
two decimal places. -/
theorem series_builder_spec (m : Mat) (cats : List String) (y : Int)
    (hy : y ∈ matYears m) :
    (seriesForYear m cats y).length = cats.length ∧
    (∀ i : Nat, (seriesForYear m cats y)[i]? =
      (cats[i]?).map fun c => (cellValue m c y).map roundTo2) ∧
    ∀ i : Nat, ∀ v : ℚ, (seriesForYear m cats y)[i]? = some (some v) →
      ∃ z : ℤ, v = (z : ℚ) / 100 := by
  rw [seriesForYear, if_pos hy]
  refine ⟨List.length_map _ _, fun i => List.getElem?_map _ _ _, ?_⟩
  intro i v hv
  rw [List.getElem?_map] at hv
  rcases Option.map_eq_some'.mp hv with ⟨c, _, hcv⟩
  rcases Option.map_eq_some'.mp hcv with ⟨w, _, hwv⟩
  exact ⟨roundHalfEven (w * 100), by rw [← hwv]; rfl⟩

/-- Witness for C4 at the concrete matrix and a present year. -/
theorem series_builder_spec_witness :
    (seriesForYear tieMat ["A", "B", "C"] 2020).length
      = (["A", "B", "C"] : List String).length :=
  (series_builder_spec tieMat ["A", "B", "C"] 2020 (by decide)).1

/-! ### The worked example of the specification -/

/-- The example observations: (A,2020,10), (A,2021,20), (B,2020,5). -/
def exObs : List Observation :=
  [⟨"A", some 2020, some 10⟩, ⟨"A", some 2021, some 20⟩, ⟨"B", some 2020, some 5⟩]

/-- The example population table: A ↦ 10, B ↦ 5. -/
def exPop : List (String × ℚ) := [("A", 10), ("B", 5)]

unseal Rat.add Rat.mul Rat.inv Rat.sub in
/-- C8 — the worked example: normalized rows (1.0, 2.0, 1.0), the 2 × 2
matrix with B missing 2021, category order [A, B] under `total`
(3.0 > 1.0), and the 2021 series [2.0, null]. -/
theorem example_pipeline_spec :
    normalize exPop exObs =
      [⟨"A", some 2020, some 10, 10, some 1⟩, ⟨"A", some 2021, some 20, 10, some 2⟩,
        ⟨"B", some 2020, some 5, 5, some 1⟩] ∧
    buildMatrix (normalize exPop exObs) =
      [(("A", 2020), 1), (("A", 2021), 2), (("B", 2020), 1)] ∧
    categoriesFor "total" (buildMatrix (normalize exPop exObs)) = ["A", "B"] ∧
    seriesForYear (buildMatrix (normalize exPop exObs))
      (categoriesFor "total" (buildMatrix (normalize exPop exObs))) 2021 =
      [some 2, none] := by
  decide

unseal Rat.add Rat.mul Rat.inv Rat.sub in
/-- Witness for C2: the first example row is kept with per-capita 10/10. -/
theorem normalizer_spec_witness :
    (⟨"A", some 2020, some 10, 10, some 1⟩ : NormObs) ∈ normalize exPop exObs :=
  (normalizer_spec exPop exObs ⟨"A", some 2020, some 10, 10, some 1⟩).mpr
    ⟨⟨"A", some 2020, some 10⟩, by decide, by decide, by decide, rfl, rfl, rfl, by decide⟩

/-- Witness for C5 at a concrete key of the empty row set. -/
theorem aggregator_spec_witness :
    cellValue (buildMatrix []) "A" 2020 = mean? (valsAt (validRows []) ("A", 2020)) :=
  (aggregator_spec []).1 "A" 2020

/-- Witness for C7 at a concrete row set. -/
theorem aggregation_idempotent_witness :
    aggregate (toRows (aggregate [("A", 2020, 1), ("A", 2020, 3)])) =
      aggregate [("A", 2020, 1), ("A", 2020, 3)] :=
  aggregation_idempotent [("A", 2020, 1), ("A", 2020, 3)]

end Patents
